import Mathlib

/-!
# Fog engine asset subsystem: kerning lookup and asset accessors

A shallow embedding of `src/engine/asset/asset.h`:

* `Asset::Font::find_kerning` (the key packing and the search loop),
* `Asset::Header::set_string_list_ptr`,
* `Asset::fetch_image` / `Asset::fetch_font` (only declared in the header).

Conventions of the embedding.

* `char` arguments are given by their value after integral promotion to `int`
  (`-128 .. 127` where plain `char` is signed, `0 .. 255` where it is
  unsigned).  `int` is 32-bit two's complement; `int_bits` is its bit pattern.
* `s64` variables (`low`, `high`, `cur`, `last_guess`, `num_kernings`) are
  `Int`.  Inside the loop `0 ≤ low` and `high ≤ num_kernings + 1`, so no `s64`
  operation overflows when `num_kernings < 2 ^ 62`, which every table that
  fits in a 64-bit address space satisfies (an entry takes eight bytes).
* `f32` values are never computed with in `find_kerning`: they are only copied
  out of the table or produced from the literal `0`.  They are kept abstract,
  as a type `F` with a zero.
* `Kerning *kernings` is a C pointer: it carries no length.  `Font.kernings i`
  is what a read `kernings[i]` yields; only the indices `0 ≤ i < num_kernings`
  belong to the table, the others are whatever lies in memory around it.
* The `while` loop is run with fuel, and records the indices it reads.
-/

namespace Asset

/-! ## Data model -/

/-- The `enum class Type` of asset kinds. -/
inductive Type_ where
  | NONE | TEXTURE | FONT | ATLAS | SOUND | SHADER | CONFIG | LEVEL
  deriving DecidableEq

/-- The `struct Header`, one per asset.  Pointers are addresses. -/
structure Header where
  type : Type_
  file_path : Nat
  file_path_length : Nat
  timestamp : Nat
  offset : Nat
  asset_size : Nat
  asset_id : Nat
  deriving DecidableEq

/-- The `struct Font::Kerning`: a `u16 key` and an `f32 ammount`. -/
structure Kerning (F : Type) where
  key : Nat
  ammount : F
  deriving DecidableEq

/-- The fields of `struct Font` that `find_kerning` uses. -/
structure Font (F : Type) where
  num_kernings : Int
  kernings : Int → Kerning F

/-! ## `Font::find_kerning` -/

/-- Bit pattern of a 32-bit `int` value. -/
def int_bits (c : Int) : Nat := (c % 2 ^ 32).toNat

/-- The line `u16 key = (a << 8) | b;`: both `char`s are promoted to `int`,
the left one is shifted by eight bits (on the bit pattern, also when `a` is
negative, as compilers do and C++20 defines), the two are or-ed, and the
conversion to `u16` keeps the low sixteen bits. -/
def pack_key (a b : Int) : Nat :=
  ((((int_bits a) <<< 8) % 2 ^ 32) ||| int_bits b) % 2 ^ 16

/-- What one call of `find_kerning` does: the value it returns and the indices
`cur` at which it read `kernings[cur]`, in order. -/
structure Run (F : Type) where
  result : F
  probes : List Int
  deriving DecidableEq

/-- Record one more read in front of the reads of the rest of the loop. -/
def Run.probe {F : Type} (cur : Int) (r : Run F) : Run F :=
  { r with probes := cur :: r.probes }

/-- The `while (low <= high)` loop of `find_kerning`, from the state
`(low, high, last_guess)`.  One unit of fuel is one evaluation of the loop
condition; `none` means the fuel ran out. -/
def find_kerning_loop {F : Type} [Zero F] (font : Font F) (key : Nat) :
    Nat → Int → Int → Int → Option (Run F)
  | 0, _, _, _ => none
  | fuel + 1, low, high, last_guess =>
    if low ≤ high then
      let cur := (low + high).tdiv 2
      if cur < 0 ∨ font.num_kernings < cur ∨ cur = last_guess then
        some ⟨0, []⟩
      else
        let cur_key := (font.kernings cur).key
        if cur_key > key then
          (find_kerning_loop font key fuel low (cur + 1) cur).map (Run.probe cur)
        else if cur_key < key then
          (find_kerning_loop font key fuel (cur + 1) high cur).map (Run.probe cur)
        else
          some ⟨(font.kernings cur).ammount, [cur]⟩
    else
      some ⟨0, []⟩

/-- Fuel that lets the loop of `find_kerning` finish on every font
(`find_kerning_loop_init_some`). -/
def find_kerning_fuel {F : Type} (font : Font F) : Nat :=
  font.num_kernings.toNat + 3

/-- The body of `find_kerning(a, b)`: the key, then the loop from
`low = 0`, `high = num_kernings`, `last_guess = -1`. -/
def find_kerning_run {F : Type} [Zero F] (font : Font F) (a b : Int) :
    Option (Run F) :=
  find_kerning_loop font (pack_key a b) (find_kerning_fuel font) 0 font.num_kernings (-1)

/-- The value `find_kerning(a, b)` returns. -/
def find_kerning {F : Type} [Zero F] (font : Font F) (a b : Int) : Option F :=
  (find_kerning_run font a b).map Run.result

/-- A font whose table is the list `table`, followed in memory by copies of
`beyond`. -/
def Font.ofList {F : Type} (table : List (Kerning F)) (beyond : Kerning F) : Font F where
  num_kernings := table.length
  kernings := fun i => table.getD i.toNat beyond

/-- The table of `font` is sorted strictly ascending by key. -/
def Font.StrictSorted {F : Type} (font : Font F) : Prop :=
  ∀ i j : Int, 0 ≤ i → i < j → j < font.num_kernings →
    (font.kernings i).key < (font.kernings j).key

/-- The table of `font` is sorted ascending by key. -/
def Font.Sorted {F : Type} (font : Font F) : Prop :=
  ∀ i j : Int, 0 ≤ i → i ≤ j → j < font.num_kernings →
    (font.kernings i).key ≤ (font.kernings j).key

/-- A bound on the number of further evaluations of the loop condition, minus
one, from the state `(low, high, last_guess)`. -/
def loop_measure (low high last_guess : Int) : Nat :=
  if high < low then 0
  else if (low + high) / 2 = last_guess then 1
  else (high - low).toNat + 2

/-! ## `Header::set_string_list_ptr` -/

/-- The state `Header::set_string_list_ptr` lives in: the static member
`Header::string_list_base` (an address) and the `Header` records that exist. -/
structure HeaderState where
  string_list_base : Nat
  headers : List Header
  deriving DecidableEq

/-- The static member function `Header::set_string_list_ptr`: the single
assignment `string_list_base = string_list;`. -/
def Header.set_string_list_ptr (string_list : Nat) (s : HeaderState) : HeaderState :=
  { s with string_list_base := string_list }

/-! ## `fetch_image` and `fetch_font`

Only the declarations of the two accessors are in `asset.h`; their bodies are
in a file of the engine that is not part of this development. -/

/-- Modelled from the spec: the loaded archive of the Asset Registry (§4.3),
missing from the sources at hand, as the parsed `Header` array with, for each
header, the slot of the data segment it owns (a value of type `D`). -/
abbrev Registry (D : Type) := List (Header × D)

/-- Modelled from the spec: the index of the Asset Registry (§4.3), an
`asset_id → Header` mapping, missing from the sources at hand. -/
def Registry.lookup {D : Type} (reg : Registry D) (id : Nat) : Option (Header × D) :=
  reg.find? (fun e => decide (e.1.asset_id = id))

/-- Modelled from the spec: the types `fetch_image` accepts, "`type == TEXTURE`
(or ATLAS, per actual asset type)" (§4.3); the body of `fetch_image` is
missing from the sources at hand. -/
def is_image_type (t : Type_) : Bool :=
  decide (t = Type_.TEXTURE) || decide (t = Type_.ATLAS)

/-- Modelled from the spec: `fetch_image(id)` (§4.3), whose body is missing from
the sources at hand: a reference to the data of the header `id` maps to when
that header is of an image type, and "not found" (`none`, the null pointer)
when `id` is unknown or the type mismatches. -/
def fetch_image {D : Type} (reg : Registry D) (id : Nat) : Option D :=
  match reg.lookup id with
  | some e => if is_image_type e.1.type then some e.2 else none
  | none => none

/-- Modelled from the spec: `fetch_font(id)` (§4.3), whose body is missing from
the sources at hand: "same contract, `type == FONT`". -/
def fetch_font {D : Type} (reg : Registry D) (id : Nat) : Option D :=
  match reg.lookup id with
  | some e => if e.1.type = Type_.FONT then some e.2 else none
  | none => none

/-! ## Concrete inputs -/

/-- The table of the scenario of the spec, the single pair `AB = -2`; the
memory behind it holds the bytes of a pair `BA = 3`. -/
def font_AB : Font Int :=
  Font.ofList [⟨pack_key 65 66, -2⟩] ⟨pack_key 66 65, 3⟩

/-- A table of two pairs, `AB = 5` and `AC = 7`, followed by zero bytes. -/
def font_AB_AC : Font Int :=
  Font.ofList [⟨pack_key 65 66, 5⟩, ⟨pack_key 65 67, 7⟩] ⟨0, 0⟩

/-- An empty table; the memory `kernings` points to holds the bytes of a pair
`AB = 9`. -/
def font_empty : Font Int :=
  Font.ofList [] ⟨pack_key 65 66, 9⟩

/-- An archive of two assets: a texture with id `0` and a font with id `1`;
the data slots are named by a number. -/
def registry_example : Registry Nat :=
  [(⟨Type_.TEXTURE, 0, 9, 0, 0, 64, 0⟩, 100), (⟨Type_.FONT, 9, 8, 0, 64, 32, 1⟩, 101)]

/-! ## The loop of `find_kerning`: fuel and termination -/

section Loop

variable {F : Type} [Zero F] (font : Font F) (key : Nat)

/-- One evaluation of the loop condition and body, with the local variables
`cur` and `cur_key` written out. -/
theorem find_kerning_loop_step (fuel : Nat) (low high last_guess : Int) :
    find_kerning_loop font key (fuel + 1) low high last_guess =
      if low ≤ high then
        if (low + high).tdiv 2 < 0 ∨ font.num_kernings < (low + high).tdiv 2 ∨
            (low + high).tdiv 2 = last_guess then
          some ⟨0, []⟩
        else if (font.kernings ((low + high).tdiv 2)).key > key then
          (find_kerning_loop font key fuel low ((low + high).tdiv 2 + 1)
            ((low + high).tdiv 2)).map (Run.probe ((low + high).tdiv 2))
        else if (font.kernings ((low + high).tdiv 2)).key < key then
          (find_kerning_loop font key fuel ((low + high).tdiv 2 + 1) high
            ((low + high).tdiv 2)).map (Run.probe ((low + high).tdiv 2))
        else
          some ⟨(font.kernings ((low + high).tdiv 2)).ammount, [(low + high).tdiv 2]⟩
      else
        some ⟨0, []⟩ := rfl

theorem find_kerning_loop_succ (fuel : Nat) (low high last_guess : Int) (r : Run F)
    (h : find_kerning_loop font key fuel low high last_guess = some r) :
    find_kerning_loop font key (fuel + 1) low high last_guess = some r := by
  induction fuel generalizing low high last_guess r with
  | zero => simp [find_kerning_loop] at h
  | succ n ih =>
    rw [find_kerning_loop_step] at h
    rw [find_kerning_loop_step]
    split_ifs at h ⊢ with h1 h2 h3 h4
    · exact h
    · cases ho : find_kerning_loop font key n low ((low + high).tdiv 2 + 1)
          ((low + high).tdiv 2) with
      | none => rw [ho] at h; cases h
      | some r1 => rw [ih _ _ _ _ ho]; rw [ho] at h; exact h
    · cases ho : find_kerning_loop font key n ((low + high).tdiv 2 + 1) high
          ((low + high).tdiv 2) with
      | none => rw [ho] at h; cases h
      | some r1 => rw [ih _ _ _ _ ho]; rw [ho] at h; exact h
    · exact h
    · exact h

theorem find_kerning_loop_mono (fuel fuel1 : Nat) (hle : fuel ≤ fuel1)
    (low high last_guess : Int) (r : Run F)
    (h : find_kerning_loop font key fuel low high last_guess = some r) :
    find_kerning_loop font key fuel1 low high last_guess = some r := by
  induction hle with
  | refl => exact h
  | step _ ih => exact find_kerning_loop_succ font key _ _ _ _ _ ih

theorem find_kerning_loop_some (fuel : Nat) (low high last_guess : Int)
    (hlow : 0 ≤ low) (hfuel : loop_measure low high last_guess < fuel) :
    ∃ r, find_kerning_loop font key fuel low high last_guess = some r := by
  induction fuel generalizing low high last_guess with
  | zero => omega
  | succ n ih =>
    rw [find_kerning_loop_step]
    by_cases h1 : low ≤ high
    · have hc : (low + high).tdiv 2 = (low + high) / 2 :=
        Int.tdiv_eq_ediv (by omega) (by omega)
      simp only [hc, h1, if_true]
      split_ifs with h2 h3 h4
      · exact ⟨_, rfl⟩
      · have hm : loop_measure low ((low + high) / 2 + 1) ((low + high) / 2) < n := by
          unfold loop_measure at hfuel ⊢
          split_ifs at hfuel ⊢ <;> omega
        obtain ⟨r, hr⟩ := ih _ _ _ hlow hm
        exact ⟨_, by rw [hr]; rfl⟩
      · have hm : loop_measure ((low + high) / 2 + 1) high ((low + high) / 2) < n := by
          unfold loop_measure at hfuel ⊢
          split_ifs at hfuel ⊢ <;> omega
        obtain ⟨r, hr⟩ := ih _ _ _ (by omega) hm
        exact ⟨_, by rw [hr]; rfl⟩
      · exact ⟨_, rfl⟩
    · simp only [h1, if_false]
      exact ⟨_, rfl⟩

end Loop

/-! ## The key of `find_kerning` -/

theorem or_mod_two_pow (x y n : Nat) :
    (x ||| y) % 2 ^ n = (x % 2 ^ n) ||| (y % 2 ^ n) := by
  apply Nat.eq_of_testBit_eq
  intro i
  simp only [Nat.testBit_mod_two_pow, Nat.testBit_or]
  cases decide (i < n) <;> simp

/-- The shifted left operand has its low eight bits clear. -/
theorem shifted_eq (a : Int) :
    ((int_bits a) <<< 8) % 2 ^ 32 = 2 ^ 8 * (int_bits a % 2 ^ 24) := by
  rw [Nat.shiftLeft_eq]
  omega

/-- With a non-negative right character the or is an addition. -/
theorem pack_key_nonneg (a b : Int) (h0 : 0 ≤ b) (h1 : b ≤ 255) :
    pack_key a b = 256 * (a % 256).toNat + b.toNat := by
  unfold pack_key
  rw [shifted_eq]
  have hb : int_bits b = b.toNat := by unfold int_bits; omega
  have hlt : int_bits b < 2 ^ 8 := by rw [hb]; omega
  rw [← Nat.mul_add_lt_is_or hlt]
  unfold int_bits at *
  omega

/-- The low byte of the key is the right character, whatever its sign. -/
theorem pack_key_low (a b : Int) : pack_key a b % 256 = (b % 256).toNat := by
  unfold pack_key
  rw [shifted_eq]
  have hz : ∀ z : Nat, z % 2 ^ 16 % 256 = z % 2 ^ 8 := by intro z; omega
  rw [hz, or_mod_two_pow]
  have h0 : 2 ^ 8 * (int_bits a % 2 ^ 24) % 2 ^ 8 = 0 := by omega
  rw [h0, Nat.zero_or]
  unfold int_bits
  omega

/-- A negative right character is sign-extended by the promotion to `int`, and
its high bits cover the left character. -/
theorem pack_key_neg (a b : Int) (h0 : -128 ≤ b) (h1 : b < 0) :
    pack_key a b = 65280 + (b % 256).toNat := by
  unfold pack_key
  rw [shifted_eq]
  have hb : int_bits b = 2 ^ 8 * (2 ^ 24 - 1) + (b % 256).toNat := by
    unfold int_bits; omega
  have hlt : (b % 256).toNat < 2 ^ 8 := by omega
  rw [hb, Nat.mul_add_lt_is_or hlt, ← Nat.or_assoc]
  have hor : 2 ^ 8 * (int_bits a % 2 ^ 24) ||| 2 ^ 8 * (2 ^ 24 - 1)
      = 2 ^ 8 * (2 ^ 24 - 1) := by
    have hm : int_bits a % 2 ^ 24 < 2 ^ 24 := Nat.mod_lt _ (by norm_num)
    generalize int_bits a % 2 ^ 24 = m at hm
    apply Nat.eq_of_testBit_eq
    intro i
    simp only [Nat.testBit_or, Nat.testBit_mul_pow_two, Nat.testBit_two_pow_sub_one]
    by_cases h8 : 8 ≤ i
    · by_cases h24 : i - 8 < 24
      · simp [h8, h24]
      · have : m.testBit (i - 8) = false :=
          Nat.testBit_lt_two_pow
            (lt_of_lt_of_le hm (Nat.pow_le_pow_right (by norm_num) (by omega)))
        simp [h8, h24, this]
    · simp [h8]
  rw [hor, ← Nat.mul_add_lt_is_or hlt]
  omega

/-- C6, as the code has it: for every left character `a` and every right
character `b` (`-128 ≤ b ≤ 255`), the low byte of the key `find_kerning`
builds is `b mod 256`; its high byte is `a mod 256` whenever `b` is not
negative (so for every pair of ASCII characters), and is `0xFF`, whatever `a`
is, when `b` is negative. -/
theorem pack_key_bytes (a b : Int) (hb : -128 ≤ b ∧ b ≤ 255) :
    pack_key a b % 256 = (b % 256).toNat ∧
    (0 ≤ b → pack_key a b / 256 = (a % 256).toNat) ∧
    (b < 0 → pack_key a b / 256 = 255) := by
  refine ⟨pack_key_low a b, fun h0 => ?_, fun h1 => ?_⟩
  · rw [pack_key_nonneg a b h0 hb.2]; omega
  · rw [pack_key_neg a b hb.1 h1]; omega

/-- Witness of `pack_key_bytes`: the pair `('A', 'B')` packs to `0x4142`. -/
theorem pack_key_bytes_witness :
    pack_key 65 66 % 256 = 66 ∧ pack_key 65 66 / 256 = 65 :=
  ⟨(pack_key_bytes 65 66 (by decide)).1, (pack_key_bytes 65 66 (by decide)).2.1 (by decide)⟩

/-- C6 as stated fails: where plain `char` is signed, the pair `('A', '\xFF')`,
that is `(65, -1)`, packs to `0xFFFF`, whose high byte is not `'A'`. -/
theorem pack_key_high_byte_counterexample :
    ¬ ∀ a b : Int, -128 ≤ a → a ≤ 127 → -128 ≤ b → b ≤ 127 →
      pack_key a b / 256 = (a % 256).toNat ∧ pack_key a b % 256 = (b % 256).toNat := by
  intro h
  have h1 := (h 65 (-1) (by decide) (by decide) (by decide) (by decide)).1
  revert h1
  decide

/-! ## Termination (C5) -/

/-- From the initial state the fuel of `find_kerning_run` is enough. -/
theorem find_kerning_loop_init_some {F : Type} [Zero F] (font : Font F) (key : Nat) :
    ∃ r : Run F,
      find_kerning_loop font key (find_kerning_fuel font) 0 font.num_kernings (-1) = some r := by
  have hm : loop_measure 0 font.num_kernings (-1) < find_kerning_fuel font := by
    unfold loop_measure find_kerning_fuel
    split_ifs <;> omega
  exact find_kerning_loop_some font key _ 0 font.num_kernings (-1) le_rfl hm

/-- C5: the loop of `find_kerning` finishes on every font, whatever
`num_kernings` is and whatever the memory behind `kernings` holds, sorted or
not, and for every key: `num_kernings + 3` evaluations of the loop condition
(three when `num_kernings` is negative) are enough for the call to return, and
more fuel does not change what it does. -/
theorem find_kerning_loop_finishes {F : Type} [Zero F] (font : Font F) (key : Nat) :
    ∃ r : Run F, ∀ fuel : Nat, find_kerning_fuel font ≤ fuel →
      find_kerning_loop font key fuel 0 font.num_kernings (-1) = some r := by
  obtain ⟨r, hr⟩ := find_kerning_loop_init_some font key
  exact ⟨r, fun fuel hle => find_kerning_loop_mono font key _ fuel hle _ _ _ r hr⟩

/-! ## What the loop reads and returns -/

/-- A run whose loop goes on after reading `cur` is the rest of the run with
`cur` in front of its reads. -/
theorem map_probe_eq_some {F : Type} {o : Option (Run F)} {cur : Int} {r : Run F}
    (h : o.map (Run.probe cur) = some r) :
    ∃ r1, o = some r1 ∧ r.result = r1.result ∧ r.probes = cur :: r1.probes := by
  cases o with
  | none => simp at h
  | some r1 =>
    simp only [Option.map_some', Option.some.injEq] at h
    subst h
    exact ⟨r1, rfl, rfl, rfl⟩

section Probes

variable {F : Type} [Zero F] (font : Font F) (key : Nat)

/-- Every index the loop reads passed the guard: it lies in
`0 .. num_kernings`, both ends included. -/
theorem find_kerning_loop_probes_le (fuel : Nat) (low high last_guess : Int) (r : Run F)
    (h : find_kerning_loop font key fuel low high last_guess = some r) :
    ∀ i ∈ r.probes, 0 ≤ i ∧ i ≤ font.num_kernings := by
  induction fuel generalizing low high last_guess r with
  | zero => simp [find_kerning_loop] at h
  | succ n ih =>
    rw [find_kerning_loop_step] at h
    split_ifs at h with h1 h2 h3 h4
    · cases h; simp
    · obtain ⟨r1, hr1, -, hp⟩ := map_probe_eq_some h
      intro i hi
      rw [hp, List.mem_cons] at hi
      rcases hi with rfl | hi
      · omega
      · exact ih _ _ _ _ hr1 i hi
    · obtain ⟨r1, hr1, -, hp⟩ := map_probe_eq_some h
      intro i hi
      rw [hp, List.mem_cons] at hi
      rcases hi with rfl | hi
      · omega
      · exact ih _ _ _ _ hr1 i hi
    · cases h
      intro i hi
      rw [List.mem_singleton] at hi
      subst hi
      omega
    · cases h; simp

/-- The loop returns at the first read that matches, and returns `0` when no
read matches. -/
theorem find_kerning_loop_match (fuel : Nat) (low high last_guess : Int) (r : Run F)
    (h : find_kerning_loop font key fuel low high last_guess = some r) :
    (∀ pre j post, r.probes = pre ++ j :: post → (font.kernings j).key = key →
      post = [] ∧ r.result = (font.kernings j).ammount) ∧
    ((∀ i ∈ r.probes, (font.kernings i).key ≠ key) → r.result = 0) := by
  induction fuel generalizing low high last_guess r with
  | zero => simp [find_kerning_loop] at h
  | succ n ih =>
    rw [find_kerning_loop_step] at h
    split_ifs at h with h1 h2 h3 h4
    · cases h
      exact ⟨fun pre j post hp => by simp at hp, fun _ => rfl⟩
    · obtain ⟨r1, hr1, hres, hp⟩ := map_probe_eq_some h
      obtain ⟨ihB, ihA⟩ := ih _ _ _ _ hr1
      refine ⟨fun pre j post hpp hj => ?_, fun hall => ?_⟩
      · rw [hp] at hpp
        cases pre with
        | nil =>
          simp only [List.nil_append, List.cons.injEq] at hpp
          rw [← hpp.1] at hj
          omega
        | cons p pre1 =>
          simp only [List.cons_append, List.cons.injEq] at hpp
          rw [hres]
          exact ihB pre1 j post hpp.2 hj
      · rw [hres]
        exact ihA (fun i hi => hall i (by rw [hp]; exact List.mem_cons_of_mem _ hi))
    · obtain ⟨r1, hr1, hres, hp⟩ := map_probe_eq_some h
      obtain ⟨ihB, ihA⟩ := ih _ _ _ _ hr1
      refine ⟨fun pre j post hpp hj => ?_, fun hall => ?_⟩
      · rw [hp] at hpp
        cases pre with
        | nil =>
          simp only [List.nil_append, List.cons.injEq] at hpp
          rw [← hpp.1] at hj
          omega
        | cons p pre1 =>
          simp only [List.cons_append, List.cons.injEq] at hpp
          rw [hres]
          exact ihB pre1 j post hpp.2 hj
      · rw [hres]
        exact ihA (fun i hi => hall i (by rw [hp]; exact List.mem_cons_of_mem _ hi))
    · cases h
      refine ⟨fun pre j post hpp _ => ?_, fun hall => ?_⟩
      · cases pre with
        | nil =>
          simp only [List.nil_append, List.cons.injEq] at hpp
          exact ⟨hpp.2.symm, by rw [hpp.1]⟩
        | cons p pre1 => simp at hpp
      · exact absurd (by omega) (hall _ (List.mem_singleton.mpr rfl))
    · cases h
      exact ⟨fun pre j post hp => by simp at hp, fun _ => rfl⟩

/-- With `high` at two or more, the midpoint is never index `0`. -/
theorem find_kerning_loop_probes_pos (fuel : Nat) (low high last_guess : Int) (r : Run F)
    (hlow : 0 ≤ low) (hhigh : 2 ≤ high)
    (h : find_kerning_loop font key fuel low high last_guess = some r) :
    ∀ i ∈ r.probes, 1 ≤ i := by
  induction fuel generalizing low high last_guess r with
  | zero => simp [find_kerning_loop] at h
  | succ n ih =>
    rw [find_kerning_loop_step] at h
    have hc : (low + high).tdiv 2 = (low + high) / 2 :=
      Int.tdiv_eq_ediv (by omega) (by omega)
    rw [hc] at h
    split_ifs at h with h1 h2 h3 h4
    · cases h; simp
    · obtain ⟨r1, hr1, -, hp⟩ := map_probe_eq_some h
      intro i hi
      rw [hp, List.mem_cons] at hi
      rcases hi with rfl | hi
      · omega
      · exact ih _ _ _ _ hlow (by omega) hr1 i hi
    · obtain ⟨r1, hr1, -, hp⟩ := map_probe_eq_some h
      intro i hi
      rw [hp, List.mem_cons] at hi
      rcases hi with rfl | hi
      · omega
      · exact ih _ _ _ _ (by omega) hhigh hr1 i hi
    · cases h
      intro i hi
      rw [List.mem_singleton] at hi
      subst hi
      omega
    · cases h; simp

/-- Looking for the key of entry `0` in a strictly sorted table of two or more
entries: `low` stays `0`, every read is of an entry with a larger key, and the
loop ends on the `last_guess` check. -/
theorem find_kerning_loop_first_key (hs : font.StrictSorted)
    (hkey : key = (font.kernings 0).key)
    (fuel : Nat) (high last_guess : Int) (r : Run F)
    (hhigh : 2 ≤ high) (hle : high ≤ font.num_kernings)
    (h : find_kerning_loop font key fuel 0 high last_guess = some r) :
    r.result = 0 := by
  induction fuel generalizing high last_guess r with
  | zero => simp [find_kerning_loop] at h
  | succ n ih =>
    rw [find_kerning_loop_step] at h
    have hc : (0 + high).tdiv 2 = high / 2 := by
      rw [Int.tdiv_eq_ediv (by omega) (by omega), Int.zero_add]
    rw [hc] at h
    have hgt : key < (font.kernings (high / 2)).key := by
      rw [hkey]
      exact hs 0 (high / 2) le_rfl (by omega) (by omega)
    rw [if_pos (show (0 : Int) ≤ high by omega),
      if_pos (show (font.kernings (high / 2)).key > key from hgt)] at h
    split_ifs at h with h2
    · cases h; rfl
    · obtain ⟨r1, hr1, hres, -⟩ := map_probe_eq_some h
      rw [hres]
      exact ih _ _ _ (by omega) (by omega) hr1

/-- The first read of a call on a table with at least one entry is at the
midpoint `num_kernings / 2`. -/
theorem find_kerning_loop_first_probe (fuel : Nat) (r : Run F)
    (hn : 1 ≤ font.num_kernings)
    (h : find_kerning_loop font key fuel 0 font.num_kernings (-1) = some r) :
    r.probes.head? = some (font.num_kernings / 2) := by
  cases fuel with
  | zero => simp [find_kerning_loop] at h
  | succ n =>
    rw [find_kerning_loop_step] at h
    have hc : (0 + font.num_kernings).tdiv 2 = font.num_kernings / 2 := by
      rw [Int.tdiv_eq_ediv (by omega) (by omega), Int.zero_add]
    rw [hc] at h
    split_ifs at h with h1 h2 h3 h4
    · omega
    · obtain ⟨r1, -, -, hp⟩ := map_probe_eq_some h
      rw [hp]; rfl
    · obtain ⟨r1, -, -, hp⟩ := map_probe_eq_some h
      rw [hp]; rfl
    · cases h; rfl
    · omega

/-- On an empty table the loop reads `kernings[0]`, and nothing else. -/
theorem find_kerning_loop_empty (hn : font.num_kernings = 0) (fuel : Nat) (r : Run F)
    (h : find_kerning_loop font key (fuel + 3) 0 0 (-1) = some r) :
    r.probes = [0] := by
  have e0 : (0 + 0 : Int).tdiv 2 = 0 := by decide
  have e1 : (0 + (0 + 1) : Int).tdiv 2 = 0 := by decide
  rw [find_kerning_loop_step, e0, if_pos le_rfl, if_neg (by rw [hn]; decide)] at h
  split_ifs at h with h1 h2
  · rw [find_kerning_loop_step, e1, if_pos (by decide), if_pos (Or.inr (Or.inr rfl))] at h
    cases h; rfl
  · rw [find_kerning_loop_step, if_neg (by decide)] at h
    cases h; rfl
  · cases h; rfl

end Probes

/-! ## The claims on `find_kerning` -/

section Claims

/-- A key that no entry of the table has, and that the slot just past the
table does not hold either, gets `0`, on every font, sorted or not. -/
theorem find_kerning_absent_key {F : Type} [Zero F] (font : Font F) (a b : Int)
    (habs : ∀ i : Int, 0 ≤ i → i < font.num_kernings →
      (font.kernings i).key ≠ pack_key a b)
    (hend : (font.kernings font.num_kernings).key ≠ pack_key a b) :
    find_kerning font a b = some 0 := by
  obtain ⟨r, hr⟩ := find_kerning_loop_init_some font (pack_key a b)
  have hle := find_kerning_loop_probes_le font _ _ _ _ _ r hr
  have h0 := (find_kerning_loop_match font _ _ _ _ _ r hr).2 (fun i hi => by
    obtain ⟨hi0, hin⟩ := hle i hi
    rcases lt_or_eq_of_le hin with hlt | heq
    · exact habs i hi0 hlt
    · rw [heq]; exact hend)
  unfold find_kerning find_kerning_run
  rw [hr, Option.map_some', h0]

/-- A table of one entry: the pair of that entry gets its `ammount`. -/
theorem find_kerning_single_entry {F : Type} [Zero F] (font : Font F) (x y : Int)
    (hn : font.num_kernings = 1) (hk : (font.kernings 0).key = pack_key x y) :
    find_kerning font x y = some (font.kernings 0).ammount := by
  obtain ⟨r, hr⟩ := find_kerning_loop_init_some font (pack_key x y)
  have hh := find_kerning_loop_first_probe font _ _ r (by omega) hr
  rw [hn, show (1 : Int) / 2 = 0 by decide] at hh
  obtain ⟨tl, hp⟩ : ∃ tl, r.probes = [] ++ 0 :: tl := by
    cases hpr : r.probes with
    | nil => rw [hpr] at hh; simp at hh
    | cons c tl =>
      rw [hpr] at hh
      simp only [List.head?_cons, Option.some.injEq] at hh
      exact ⟨tl, by rw [hh]; rfl⟩
  have h0 := ((find_kerning_loop_match font _ _ _ _ _ r hr).1 [] 0 tl hp hk).2
  unfold find_kerning find_kerning_run
  rw [hr, Option.map_some', h0]

/-- C9: on every table with at least one entry and for every pair of
characters, the first index `find_kerning` reads is `num_kernings / 2`; a read
whose key equals the search key is the last read of the call, and the call
returns the `ammount` read there; and when no read matches, the call
returns `0`. -/
theorem find_kerning_match_returns {F : Type} [Zero F] (font : Font F) (a b : Int)
    (hn : 1 ≤ font.num_kernings) :
    ∃ r, find_kerning_run font a b = some r ∧
      r.probes.head? = some (font.num_kernings / 2) ∧
      (∀ pre j post, r.probes = pre ++ j :: post →
        (font.kernings j).key = pack_key a b →
        post = [] ∧ r.result = (font.kernings j).ammount) ∧
      ((∀ i ∈ r.probes, (font.kernings i).key ≠ pack_key a b) → r.result = 0) := by
  obtain ⟨r, hr⟩ := find_kerning_loop_init_some font (pack_key a b)
  exact ⟨r, hr, find_kerning_loop_first_probe font _ _ r hn hr,
    find_kerning_loop_match font _ _ _ _ _ r hr⟩

/-- C10: on every table with at least two entries and for every pair of
characters, every index `find_kerning` reads is at least `1`; hence on a table
sorted strictly ascending with at least two entries, the pair whose key is the
key of entry `0` gets `0`, whatever the `ammount` of entry `0`. -/
theorem find_kerning_skips_first {F : Type} [Zero F] (font : Font F) (a b : Int)
    (hn : 2 ≤ font.num_kernings) :
    ∃ r, find_kerning_run font a b = some r ∧
      (∀ i ∈ r.probes, 1 ≤ i) ∧
      (font.StrictSorted → pack_key a b = (font.kernings 0).key → r.result = 0) := by
  obtain ⟨r, hr⟩ := find_kerning_loop_init_some font (pack_key a b)
  exact ⟨r, hr, find_kerning_loop_probes_pos font _ _ _ _ _ r le_rfl hn hr,
    fun hs hk => find_kerning_loop_first_key font _ hs hk _ _ _ r hn le_rfl hr⟩

/-- C4 fails on the code: on every font with an empty table
(`num_kernings = 0`) and for every pair of characters, `find_kerning` reads
`kernings[0]`, an index that is not below `num_kernings`. -/
theorem find_kerning_reads_past_empty_table {F : Type} [Zero F] (font : Font F) (a b : Int)
    (hn : font.num_kernings = 0) :
    ∃ r, find_kerning_run font a b = some r ∧ r.probes = [0] ∧
      ¬ ∀ cur ∈ r.probes, 0 ≤ cur ∧ cur < font.num_kernings := by
  obtain ⟨r, hr⟩ := find_kerning_loop_init_some font (pack_key a b)
  have hp : r.probes = [0] := by
    have hr1 := hr
    unfold find_kerning_fuel at hr1
    rw [hn] at hr1
    exact find_kerning_loop_empty font _ hn 0 r hr1
  refine ⟨r, hr, hp, fun hall => ?_⟩
  have := hall 0 (by rw [hp]; exact List.mem_singleton.mpr rfl)
  omega

/-- Witness of `find_kerning_match_returns`, on the table `AB = 5`, `AC = 7`
and the pair `('A', 'C')`. -/
theorem find_kerning_match_returns_witness :
    (1 : Int) ≤ font_AB_AC.num_kernings ∧
    ∃ r, find_kerning_run font_AB_AC 65 67 = some r ∧
      r.probes.head? = some (font_AB_AC.num_kernings / 2) ∧
      (∀ pre j post, r.probes = pre ++ j :: post →
        (font_AB_AC.kernings j).key = pack_key 65 67 →
        post = [] ∧ r.result = (font_AB_AC.kernings j).ammount) ∧
      ((∀ i ∈ r.probes, (font_AB_AC.kernings i).key ≠ pack_key 65 67) → r.result = 0) :=
  ⟨by decide, find_kerning_match_returns font_AB_AC 65 67 (by decide)⟩

/-- Witness of `find_kerning_skips_first`, on the table `AB = 5`, `AC = 7` and
the pair `('A', 'B')` of its entry `0`. -/
theorem find_kerning_skips_first_witness :
    (2 : Int) ≤ font_AB_AC.num_kernings ∧
    ∃ r, find_kerning_run font_AB_AC 65 66 = some r ∧
      (∀ i ∈ r.probes, 1 ≤ i) ∧
      (font_AB_AC.StrictSorted → pack_key 65 66 = (font_AB_AC.kernings 0).key →
        r.result = 0) :=
  ⟨by decide, find_kerning_skips_first font_AB_AC 65 66 (by decide)⟩

/-- Witness of `find_kerning_reads_past_empty_table`, on `font_empty`. -/
theorem find_kerning_reads_past_empty_table_witness :
    font_empty.num_kernings = 0 ∧
    ∃ r, find_kerning_run font_empty 65 66 = some r ∧ r.probes = [0] ∧
      ¬ ∀ cur ∈ r.probes, 0 ≤ cur ∧ cur < font_empty.num_kernings :=
  ⟨by decide, find_kerning_reads_past_empty_table font_empty 65 66 (by decide)⟩

end Claims

/-! ## `find_kerning` at concrete inputs -/

theorem font_AB_AC_strictSorted : font_AB_AC.StrictSorted := by
  intro i j h0 h1 h2
  have hn : font_AB_AC.num_kernings = 2 := by decide
  rw [hn] at h2
  have hi : i = 0 := by omega
  have hj : j = 1 := by omega
  subst hi hj
  decide

theorem font_empty_sorted : font_empty.Sorted := by
  intro i j h0 h1 h2
  have hn : font_empty.num_kernings = 0 := by decide
  rw [hn] at h2
  omega

/-- C1 fails on the code: the table `AB = 5`, `AC = 7` is sorted strictly
ascending, its entry `0` has the key of the pair `('A', 'B')` and the amount
`5`, and `find_kerning('A', 'B')` reads `kernings[1]` only and returns `0`. -/
theorem find_kerning_misses_entry_zero :
    font_AB_AC.StrictSorted ∧ (1 : Int) ≤ font_AB_AC.num_kernings ∧
    (font_AB_AC.kernings 0).key = pack_key 65 66 ∧
    (font_AB_AC.kernings 0).ammount = 5 ∧
    find_kerning_run font_AB_AC 65 66 = some ⟨0, [1]⟩ ∧
    find_kerning font_AB_AC 65 66 = some 0 :=
  ⟨font_AB_AC_strictSorted, by decide, by decide, by decide, by decide, by decide⟩

/-- C2 fails on the code: on the empty table `find_kerning('A', 'B')` reads
`kernings[0]`, past the end of the table, and returns the amount `9` found
there with the key of `('A', 'B')`. -/
theorem find_kerning_empty_table_nonzero :
    font_empty.Sorted ∧ font_empty.num_kernings = 0 ∧
    find_kerning_run font_empty 65 66 = some ⟨9, [0]⟩ ∧
    find_kerning font_empty 65 66 = some 9 :=
  ⟨font_empty_sorted, by decide, by decide, by decide⟩

/-- C3 fails on the code: with the single pair `AB = -2` in the table,
`find_kerning('A', 'B')` returns `-2`, and `find_kerning('B', 'A')` reads
`kernings[0]` and then `kernings[1]`, past the end of the table, and returns
the amount `3` found there with the key of `('B', 'A')`. -/
theorem find_kerning_reversed_pair_nonzero :
    font_AB.num_kernings = 1 ∧ font_AB.kernings 0 = ⟨pack_key 65 66, -2⟩ ∧
    find_kerning font_AB 65 66 = some (-2) ∧
    find_kerning_run font_AB 66 65 = some ⟨3, [0, 1]⟩ ∧
    find_kerning font_AB 66 65 = some 3 :=
  ⟨by decide, by decide, by decide, by decide, by decide⟩

/-! ## `Header::set_string_list_ptr` (C8) -/

/-- C8: `Header::set_string_list_ptr(p)` leaves `string_list_base` equal to
`p` whatever it was before, changes no `Header` record, and calling it again
with the same `p` changes nothing. -/
theorem set_string_list_ptr_frame (p : Nat) (s : HeaderState) :
    (Header.set_string_list_ptr p s).string_list_base = p ∧
    (Header.set_string_list_ptr p s).headers = s.headers ∧
    Header.set_string_list_ptr p (Header.set_string_list_ptr p s)
      = Header.set_string_list_ptr p s :=
  ⟨rfl, rfl, rfl⟩

/-! ## `fetch_image` and `fetch_font` (C7) -/

theorem Registry.lookup_eq_none {D : Type} (reg : Registry D) (id : Nat)
    (h : ∀ e ∈ reg, e.1.asset_id ≠ id) : reg.lookup id = none := by
  unfold Registry.lookup
  rw [List.find?_eq_none]
  intro e he
  simpa using h e he

theorem Registry.lookup_some {D : Type} (reg : Registry D) (id : Nat) (e : Header × D)
    (h : reg.lookup id = some e) : e ∈ reg ∧ e.1.asset_id = id := by
  unfold Registry.lookup at h
  exact ⟨List.mem_of_find?_eq_some h, by simpa using List.find?_some h⟩

/-- C7: `fetch_image` and `fetch_font` return "not found" for an id that no
header of the archive carries; `fetch_font` returns "not found" for an id
whose header is not of type `FONT`, and `fetch_image` for an id whose header
is not of an image type. -/
theorem fetch_not_found {D : Type} (reg : Registry D) (id : Nat) :
    ((∀ e ∈ reg, e.1.asset_id ≠ id) →
      fetch_image reg id = none ∧ fetch_font reg id = none) ∧
    ((∀ e ∈ reg, e.1.asset_id = id → e.1.type ≠ Type_.FONT) →
      fetch_font reg id = none) ∧
    ((∀ e ∈ reg, e.1.asset_id = id → is_image_type e.1.type = false) →
      fetch_image reg id = none) := by
  refine ⟨fun h => ?_, fun h => ?_, fun h => ?_⟩
  · have hl := Registry.lookup_eq_none reg id h
    simp [fetch_image, fetch_font, hl]
  · unfold fetch_font
    cases hl : reg.lookup id with
    | none => rfl
    | some e =>
      obtain ⟨he, hid⟩ := Registry.lookup_some reg id e hl
      simp [h e he hid]
  · unfold fetch_image
    cases hl : reg.lookup id with
    | none => rfl
    | some e =>
      obtain ⟨he, hid⟩ := Registry.lookup_some reg id e hl
      simp [h e he hid]

/-- Witness of `fetch_not_found`, on an archive of a texture `0` and a font
`1`: the id `7` is unknown, `fetch_font(0)` and `fetch_image(1)` mismatch, and
the matching accessors do find the two assets. -/
theorem fetch_not_found_witness :
    (fetch_image registry_example 7 = none ∧ fetch_font registry_example 7 = none) ∧
    fetch_font registry_example 0 = none ∧
    fetch_image registry_example 1 = none ∧
    fetch_image registry_example 0 = some 100 ∧
    fetch_font registry_example 1 = some 101 :=
  ⟨(fetch_not_found registry_example 7).1 (by decide),
   (fetch_not_found registry_example 0).2.1 (by decide),
   (fetch_not_found registry_example 1).2.2 (by decide),
   by decide, by decide⟩

end Asset
